import Mathlib

/-!
# Verification of the `merge_packages` aggregation core

This file gives a shallow embedding of the aggregation core of
`merge_packages.py` (the `merge` function, lines 75-164) and proves, or
refutes, the specified properties of that core.

Modelling conventions:

* An input `package.xml` file, after `xmltodict.parse`, is a `RawDoc`: an
  optional `Package` root record (`'Package' in package_dict`), whose
  `fullName`, `version` and `types` entries may each be absent (dictionary
  key lookups that the code guards with `in`, or does not guard at all).
  Remaining entries of the root record are carried opaquely in `extra`.
* The `types` entry is either a single record or a list of records, and a
  record's `members` entry is either a bare string or a list of strings,
  exactly the two shapes `xmltodict` produces and the code normalizes.
* Python version numbers (`float(...)`, `max`, `f'{v:.1f}'`) are modelled
  over `ℚ`: version strings are unsigned decimal literals, parsed exactly;
  formatting renders the value with one fractional digit using decimal
  round-half-even (CPython's rounding of an exactly representable value).
* Python exceptions are modelled with `Except`: the uncaught `KeyError`
  from `package_dict['Package']['fullName']`, the `ValueError` from
  `float`, and the `TypeError` from subscripting a `None` template.
* Python's `list.sort()` on strings is an ascending sort by code-point
  lexicographic order; it is modelled by `List.insertionSort` over that
  order on `String.data` (any correct sort of a list of strings yields the
  same list).
-/

/-- Numeric value of a decimal digit character. -/
def digitVal (c : Char) : ℕ := c.toNat - 48

/-- The decimal digit character for `d < 10`. -/
def digitChar (d : ℕ) : Char := Char.ofNat (48 + d)

/-- Code-point lexicographic `≤` on character lists: the order Python uses
to compare strings. -/
def lexLeB : List Char → List Char → Bool
  | [], _ => true
  | _ :: _, [] => false
  | a :: as, b :: bs => if a = b then lexLeB as bs else decide (a < b)

/-- Code-point lexicographic `<` on character lists. -/
def lexLtB : List Char → List Char → Bool
  | [], [] => false
  | [], _ :: _ => true
  | _ :: _, [] => false
  | a :: as, b :: bs => if a = b then lexLtB as bs else decide (a < b)

/-- Python's `<=` on strings: plain code-point lexicographic comparison,
not locale- or case-aware. -/
def strLe (s t : String) : Bool := lexLeB s.data t.data

/-- Python's `<` on strings: plain code-point lexicographic comparison. -/
def strLt (s t : String) : Bool := lexLtB s.data t.data

/-- `list.sort()` on a Python list of strings: ascending sort in
code-point lexicographic order. -/
def sortStr (l : List String) : List String :=
  List.insertionSort (fun a b => strLe a b = true) l

/-- Decimal digits of `n`, least significant first, with explicit fuel so
that the definition is structurally recursive. -/
def natToRevDigsAux : ℕ → ℕ → List Char
  | 0, _ => []
  | fuel + 1, n =>
    if n < 10 then [digitChar n]
    else digitChar (n % 10) :: natToRevDigsAux fuel (n / 10)

/-- Decimal rendering of a natural number, as Python's `str`/`format`
renders the integral and fractional parts of a float. -/
def natStr (n : ℕ) : String := ⟨(natToRevDigsAux (n + 1) n).reverse⟩

/-- Value of a list of decimal digit characters. -/
def digitsToNat (cs : List Char) : ℕ :=
  cs.foldl (fun a c => 10 * a + digitVal c) 0

/-- Parse a nonempty all-digit character list as a natural number. -/
def parseNatChars (cs : List Char) : Option ℕ :=
  if cs.isEmpty then none
  else if cs.all Char.isDigit then some (digitsToNat cs)
  else none

/-- Split a character list at the first `'.'`, if any. -/
def splitDot : List Char → List Char × Option (List Char)
  | [] => ([], none)
  | c :: cs =>
    if c = '.' then ([], some cs)
    else
      let p := splitDot cs
      (c :: p.1, p.2)

/-- `float(version)` for the version strings of the data model: an
unsigned decimal literal `digits` or `digits.digits`, parsed exactly into
`ℚ`; any other string raises `ValueError` (modelled as `none`). -/
def parseVersion (s : String) : Option ℚ :=
  let p := splitDot s.data
  match parseNatChars p.1, p.2 with
  | none, _ => none
  | some a, none => some (a : ℚ)
  | some a, some frac =>
    match parseNatChars frac with
    | none => none
    | some b => some (mkRat (a * 10 ^ frac.length + b) (10 ^ frac.length))

/-- The numerator of `q` scaled to tenths and rounded half-even: the
integer `n` such that `f'{q:.1f}'` renders `n` tenths, computed from the
exact rational value. `q` is nonnegative for every version the parser
admits. -/
def tenths (q : ℚ) : ℕ :=
  let t := 10 * q.num.toNat
  let d := q.den
  let i := t / d
  let r := t % d
  if 2 * r < d then i
  else if d < 2 * r then i + 1
  else if i % 2 = 0 then i else i + 1

/-- `f'{q:.1f}'`: render a nonnegative rational with exactly one digit
after the decimal point. -/
def formatVersion (q : ℚ) : String :=
  natStr (tenths q / 10) ++ "." ++ natStr (tenths q % 10)

/-- Does a string consist of a nonempty digit sequence, one dot, and
exactly one further digit? (The shape of every rendered version.) -/
def oneFracDigit (s : String) : Bool :=
  match splitDot s.data with
  | (ip, some fp) => !ip.isEmpty && fp.length == 1 && (ip ++ fp).all Char.isDigit
  | (_, none) => false

/-- The `members` entry of a type record: either a bare string (a single
`<members>` tag) or a list of strings. -/
inductive MembersField where
  | one : String → MembersField
  | many : List String → MembersField
  deriving DecidableEq

/-- One `<types>` record: a metadata type name and its members. -/
structure TypeRecord where
  name : String
  members : MembersField
  deriving DecidableEq

/-- The `types` entry of a package: a single record or a list of records. -/
inductive TypesField where
  | one : TypeRecord → TypesField
  | many : List TypeRecord → TypesField
  deriving DecidableEq

/-- The `Package` root record of a parsed manifest. `fullName`, `version`
and `types` may each be absent from the dictionary; remaining entries are
carried opaquely in `extra`. -/
structure RawPackage where
  fullName : Option String
  version : Option String
  types : Option TypesField
  description : Option String
  extra : List (String × String)
  deriving DecidableEq

/-- A parsed manifest document: the dictionary produced by
`xmltodict.parse`, which may or may not have a `Package` root record. -/
structure RawDoc where
  package : Option RawPackage
  deriving DecidableEq

/-- If there is only one type record, put it into list form
(`if type(mdt_types) == dict: mdt_types = [mdt_types]`). -/
def normalizeTypes : TypesField → List TypeRecord
  | .one t => [t]
  | .many ts => ts

/-- If there is only one member, put it into list form
(`if type(members) == str: members = [members]`). -/
def normalizeMembers : MembersField → List String
  | .one m => [m]
  | .many ms => ms

/-- The validity check of lines 98-100: the document has a `Package` root
record containing a `version` entry and a `types` entry. -/
def isValid (d : RawDoc) : Bool :=
  match d.package with
  | none => false
  | some p => p.version.isSome && p.types.isSome

/-- `types_dict[name].update(members)`: add each member to the set unless
already present. Python's `set` is modelled as a duplicate-free list; the
eventual output sorts it, so internal order is irrelevant. -/
def addMembers (cur : List String) (ms : List String) : List String :=
  ms.foldl (fun acc m => if m ∈ acc then acc else acc ++ [m]) cur

/-- Replace the value stored under key `t` by its `addMembers` update. -/
def updateKey : List (String × List String) → String → List String →
    List (String × List String)
  | [], _, _ => []
  | (k, v) :: rest, t, ms =>
    if k = t then (k, addMembers v ms) :: updateKey rest t ms
    else (k, v) :: updateKey rest t ms

/-- Lines 130-138 for one type record: create an empty set under the
record's name if the key is new, then union the normalized members in. -/
def addRecord (dict : List (String × List String)) (r : TypeRecord) :
    List (String × List String) :=
  let dict1 :=
    if r.name ∈ dict.map Prod.fst then dict else dict ++ [(r.name, [])]
  updateKey dict1 r.name (normalizeMembers r.members)

/-- `types_dict[k]`, with the empty set for an absent key. -/
def lookupD : List (String × List String) → String → List String
  | [], _ => []
  | (k, v) :: rest, t => if k = t then v else lookupD rest t

/-- Process the whole `types` entry of one document into the running
dictionary. -/
def procTypes (dict : List (String × List String)) (tys : TypesField) :
    List (String × List String) :=
  (normalizeTypes tys).foldl addRecord dict

/-- The mutable accumulator of the merge loop: `types_dict`,
`package_names`, `max_version` and `template` of lines 86-89. -/
structure MergeState where
  types_dict : List (String × List String)
  package_names : List String
  max_version : Option ℚ
  template : Option RawDoc
  deriving DecidableEq

/-- Lines 113-118: `if not max_version: max_version = float(v)` followed
by `max_version = max(max_version, float(v))`. Note that `not max_version`
is true both for `None` and for the float `0.0`. -/
def stepVersion (v : Option ℚ) (x : ℚ) : ℚ :=
  let v1 : ℚ :=
    match v with
    | none => x
    | some m => if m = 0 then x else m
  max v1 x

/-- The state of lines 86-89 before any document is processed. -/
def initState : MergeState := ⟨[], [], none, none⟩

/-- The Python exceptions the merge can raise, plus the spec's
`NoValidInputError`. Modelled from the spec: `noValidInput` names the
error §7 says an implementation should raise on a batch with zero valid
documents; no code in `merge_packages.py` defines or raises it, so no
branch of the embedding produces it. -/
inductive MergeError where
  | keyError
  | valueError
  | typeErrorNoneTemplate
  | typeErrorNoneVersion
  | noValidInput
  deriving DecidableEq

/-- The `for filepath in packages` loop of lines 91-138. An invalid
document executes `break` (line 105): the remaining documents are
dropped and the loop returns its current state. A valid document missing
`fullName` raises `KeyError` (line 110); a version `float` cannot parse
raises `ValueError` (line 114). -/
def runLoop : List RawDoc → MergeState → Except MergeError MergeState
  | [], st => .ok st
  | d :: rest, st =>
    match d.package with
    | none => .ok st
    | some p =>
      match p.version, p.types with
      | none, _ => .ok st
      | some _, none => .ok st
      | some ver, some tys =>
        match p.fullName with
        | none => .error .keyError
        | some nm =>
          match parseVersion ver with
          | none => .error .valueError
          | some x =>
            runLoop rest
              { types_dict := procTypes st.types_dict tys
                package_names := st.package_names ++ [nm]
                max_version := some (stepVersion st.max_version x)
                template :=
                  match st.template with
                  | none => some d
                  | some t => some t }

/-- A type record of the output: a sorted member list and a name, in the
entry order the code uses (line 159-163). -/
structure OutTypeRecord where
  members : List String
  name : String
  deriving DecidableEq

/-- The merged output document: the template with `fullName`,
`description`, `version` and `types` overwritten; every other entry of
the template's root record passes through in `extra`. -/
structure MergedPackage where
  fullName : String
  description : String
  version : String
  types : List OutTypeRecord
  extra : List (String × String)
  deriving DecidableEq

/-- The fixed prefix of the output description (line 144-145). -/
def descHeader : String :=
  "This package.xml was created by merging the following packages:\n"

/-- Lines 150-164: sort the type names, and for each emit a record with
its sorted member list. -/
def renderTypes (dict : List (String × List String)) : List OutTypeRecord :=
  (sortStr (dict.map Prod.fst)).map fun nm =>
    { members := sortStr (lookupD dict nm), name := nm }

/-- Lines 140-164: sort the collected package names, overwrite the
template's `fullName`, `description`, `version` and `types`. Subscripting
a `None` template (line 142) or formatting a `None` version (line 147)
raises `TypeError`. -/
def finalize (st : MergeState) : Except MergeError MergedPackage :=
  let names := sortStr st.package_names
  match st.template with
  | none => .error .typeErrorNoneTemplate
  | some d =>
    match d.package with
    | none => .error .typeErrorNoneTemplate
    | some p =>
      match st.max_version with
      | none => .error .typeErrorNoneVersion
      | some v =>
        .ok { fullName := "Merged_Package"
              description := descHeader ++ String.intercalate "\n" names
              version := formatVersion v
              types := renderTypes st.types_dict
              extra := p.extra }

/-- The aggregation core of `merge` (lines 86-164): fold the documents
through the loop, then render the aggregate state. File reading, XML
parsing and output writing are the external collaborators. -/
def merge (ds : List RawDoc) : Except MergeError MergedPackage :=
  match runLoop ds initState with
  | .error e => .error e
  | .ok st => finalize st

/-- Re-read an output document as an input manifest (serialize and parse
round trip): every field is present and `types`/`members` are in their
list forms, exactly as the output renders them. -/
def outTypeToRecord (r : OutTypeRecord) : TypeRecord :=
  { name := r.name, members := .many r.members }

/-- The output document wrapped back into input shape. -/
def outToRaw (o : MergedPackage) : RawDoc :=
  { package := some
      { fullName := some o.fullName
        version := some o.version
        types := some (.many (o.types.map outTypeToRecord))
        description := some o.description
        extra := o.extra } }

/-- A structurally valid manifest: `Package` root with `fullName`,
`version` and `types` all present (the spec's `ManifestDocument` of §3). -/
structure ValidDoc where
  fullName : String
  version : String
  types : TypesField
  description : Option String
  extra : List (String × String)
  deriving DecidableEq

/-- View a valid manifest as a parsed input document. -/
def ValidDoc.toRaw (d : ValidDoc) : RawDoc :=
  { package := some
      { fullName := some d.fullName
        version := some d.version
        types := some d.types
        description := d.description
        extra := d.extra } }

/-- The numeric value of a valid manifest's version (meaningful when the
version parses). -/
def parsedVersion (d : ValidDoc) : ℚ := (parseVersion d.version).getD 0

/-- Numeric maximum of a list of rationals (`0` for the empty list, which
no claim uses). -/
def listMaxD : List ℚ → ℚ
  | [] => 0
  | x :: xs => xs.foldl max x

/-- One iteration of the loop on a valid manifest whose version parses. -/
def stepValidState (st : MergeState) (d : ValidDoc) : MergeState :=
  { types_dict := procTypes st.types_dict d.types
    package_names := st.package_names ++ [d.fullName]
    max_version := some (stepVersion st.max_version (parsedVersion d))
    template :=
      match st.template with
      | none => some d.toRaw
      | some t => some t }

/-- The loop as a left fold over valid manifests. -/
def foldValid (st : MergeState) (ds : List ValidDoc) : MergeState :=
  ds.foldl stepValidState st

/-- All normalized type records contributed by a batch of valid
manifests. -/
def catTypes : List ValidDoc → List TypeRecord
  | [] => []
  | d :: ds => normalizeTypes d.types ++ catTypes ds

/-- The member list the output document carries for type name `T` (the
empty list when the output has no record for `T`). -/
def outMembers (o : MergedPackage) (T : String) : List String :=
  match o.types.find? (fun r => r.name == T) with
  | some r => r.members
  | none => []

/-- Rewrite one type record into normalized shape: members in list form. -/
def normalizeRecordShape (r : TypeRecord) : TypeRecord :=
  { name := r.name, members := .many (normalizeMembers r.members) }

/-- Rewrite a document into normalized shape: `types` in list form and
every record's members in list form. -/
def normalizeDocShape (d : RawDoc) : RawDoc :=
  match d.package with
  | none => d
  | some p =>
    { package := some
        { p with types :=
            p.types.map fun t =>
              .many ((normalizeTypes t).map normalizeRecordShape) } }

/-- Componentwise relation between a loop state reached on
shape-normalized documents and one reached on the originals: everything
agrees except that the retained template is the shape-normalized document. -/
def stRel (st1 st2 : MergeState) : Prop :=
  st1.types_dict = st2.types_dict ∧
  st1.package_names = st2.package_names ∧
  st1.max_version = st2.max_version ∧
  st1.template = Option.map normalizeDocShape st2.template

/-- `stRel` lifted to loop results: equal errors, or related states. -/
def resRel : Except MergeError MergeState → Except MergeError MergeState → Prop
  | .error e1, .error e2 => e1 = e2
  | .ok st1, .ok st2 => stRel st1 st2
  | _, _ => False

/-- Invariant of every reachable loop state: dictionary keys are unique,
every stored member set is duplicate-free, and any tracked maximum version
is nonnegative. -/
def StInv (st : MergeState) : Prop :=
  (st.types_dict.map Prod.fst).Nodup ∧
  (∀ k, (lookupD st.types_dict k).Nodup) ∧
  (∀ q, st.max_version = some q → 0 ≤ q)

instance {ε α : Type} [DecidableEq ε] [DecidableEq α] :
    DecidableEq (Except ε α) := fun
  | .ok a, .ok b => decidable_of_iff (a = b) (by simp)
  | .ok _, .error _ => isFalse (by simp)
  | .error _, .ok _ => isFalse (by simp)
  | .error e, .error f => decidable_of_iff (e = f) (by simp)

theorem lexLeB_refl : ∀ as, lexLeB as as = true
  | [] => rfl
  | a :: as => by simp [lexLeB, lexLeB_refl as]

theorem lexLeB_total : ∀ as bs, lexLeB as bs = true ∨ lexLeB bs as = true
  | [], _ => Or.inl rfl
  | _ :: _, [] => Or.inr rfl
  | a :: as, b :: bs => by
    by_cases h : a = b
    · subst h
      simpa [lexLeB] using lexLeB_total as bs
    · rcases lt_or_gt_of_ne h with hlt | hlt
      · exact Or.inl (by simp [lexLeB, h, hlt])
      · exact Or.inr (by simp [lexLeB, Ne.symm h, hlt])

theorem lexLeB_antisymm : ∀ as bs, lexLeB as bs = true → lexLeB bs as = true → as = bs
  | [], [], _, _ => rfl
  | [], _ :: _, _, h => by simp [lexLeB] at h
  | _ :: _, [], h, _ => by simp [lexLeB] at h
  | a :: as, b :: bs, h1, h2 => by
    by_cases h : a = b
    · subst h
      simp only [lexLeB, if_pos rfl] at h1 h2
      exact congrArg (a :: ·) (lexLeB_antisymm as bs h1 h2)
    · simp only [lexLeB, if_neg h, if_neg (Ne.symm h), decide_eq_true_eq] at h1 h2
      exact absurd h2 (not_lt_of_gt h1)

theorem lexLeB_trans :
    ∀ as bs cs, lexLeB as bs = true → lexLeB bs cs = true → lexLeB as cs = true
  | [], _, _, _, _ => rfl
  | _ :: _, [], _, h, _ => by simp [lexLeB] at h
  | _ :: _, _ :: _, [], _, h => by simp [lexLeB] at h
  | a :: as, b :: bs, c :: cs, h1, h2 => by
    by_cases hab : a = b <;> by_cases hbc : b = c
    · subst hab; subst hbc
      simp only [lexLeB, if_pos rfl] at h1 h2 ⊢
      exact lexLeB_trans as bs cs h1 h2
    · subst hab
      simpa [lexLeB, hbc] using h2
    · subst hbc
      simpa [lexLeB, hab] using h1
    · simp only [lexLeB, if_neg hab, if_neg hbc, decide_eq_true_eq] at h1 h2
      have hac : a < c := lt_trans h1 h2
      simp [lexLeB, ne_of_lt hac, hac]

theorem lexLtB_iff :
    ∀ as bs, lexLtB as bs = true ↔ (lexLeB as bs = true ∧ as ≠ bs)
  | [], [] => by simp [lexLtB, lexLeB]
  | [], _ :: _ => by simp [lexLtB, lexLeB]
  | _ :: _, [] => by simp [lexLtB, lexLeB]
  | a :: as, b :: bs => by
    by_cases h : a = b
    · subst h
      simpa [lexLtB, lexLeB] using lexLtB_iff as bs
    · simp [lexLtB, lexLeB, h]

theorem strData_inj : ∀ {s t : String}, s.data = t.data → s = t := by
  intro s t h
  cases s; cases t; exact congrArg String.mk h

theorem strLt_iff (s t : String) :
    strLt s t = true ↔ (strLe s t = true ∧ s ≠ t) := by
  unfold strLt strLe
  rw [lexLtB_iff]
  constructor
  · exact fun h => ⟨h.1, fun he => h.2 (congrArg String.data he)⟩
  · exact fun h => ⟨h.1, fun he => h.2 (strData_inj he)⟩

instance : IsTotal String (fun a b => strLe a b = true) :=
  ⟨fun a b => lexLeB_total a.data b.data⟩

instance : IsTrans String (fun a b => strLe a b = true) :=
  ⟨fun a b c h1 h2 => lexLeB_trans a.data b.data c.data h1 h2⟩

instance : IsAntisymm String (fun a b => strLe a b = true) :=
  ⟨fun a b h1 h2 => strData_inj (lexLeB_antisymm a.data b.data h1 h2)⟩

theorem sortStr_sorted (l : List String) :
    List.Sorted (fun a b => strLe a b = true) (sortStr l) :=
  List.sorted_insertionSort _ l

theorem sortStr_perm (l : List String) : (sortStr l).Perm l :=
  List.perm_insertionSort _ l

theorem sortStr_eq_of_sorted {l : List String}
    (h : List.Sorted (fun a b => strLe a b = true) l) : sortStr l = l :=
  List.Sorted.insertionSort_eq h

theorem sortStr_eq_of_perm {l1 l2 : List String} (h : l1.Perm l2) :
    sortStr l1 = sortStr l2 :=
  List.eq_of_perm_of_sorted ((sortStr_perm l1).trans (h.trans (sortStr_perm l2).symm))
    (sortStr_sorted l1) (sortStr_sorted l2)

theorem sortStr_nodup {l : List String} (h : l.Nodup) : (sortStr l).Nodup :=
  (sortStr_perm l).nodup_iff.mpr h

theorem mem_sortStr {l : List String} {a : String} : a ∈ sortStr l ↔ a ∈ l :=
  (sortStr_perm l).mem_iff

theorem count_sortStr (l : List String) (a : String) :
    (sortStr l).count a = l.count a :=
  (sortStr_perm l).count_eq a

theorem sortStr_eq_of_mem_iff {l1 l2 : List String} (h1 : l1.Nodup) (h2 : l2.Nodup)
    (h : ∀ a, a ∈ l1 ↔ a ∈ l2) : sortStr l1 = sortStr l2 :=
  sortStr_eq_of_perm
    ((h1.subperm fun a ha => (h a).1 ha).antisymm (h2.subperm fun a ha => (h a).2 ha))

theorem digitVal_digitChar {d : ℕ} (h : d < 10) : digitVal (digitChar d) = d := by
  interval_cases d <;> decide

theorem isDigit_digitChar {d : ℕ} (h : d < 10) : (digitChar d).isDigit = true := by
  interval_cases d <;> decide

theorem digitChar_ne_dot {d : ℕ} (h : d < 10) : digitChar d ≠ '.' := by
  interval_cases d <;> decide

theorem digitsToNat_append (xs : List Char) (c : Char) :
    digitsToNat (xs ++ [c]) = 10 * digitsToNat xs + digitVal c := by
  simp [digitsToNat, List.foldl_append]

theorem natToRevDigsAux_spec :
    ∀ fuel n, n < fuel →
      natToRevDigsAux fuel n ≠ [] ∧
      (∀ c ∈ natToRevDigsAux fuel n, c.isDigit = true) ∧
      digitsToNat (natToRevDigsAux fuel n).reverse = n := by
  intro fuel
  induction fuel with
  | zero => intro n h; omega
  | succ fuel ih =>
    intro n _
    by_cases h10 : n < 10
    · refine ⟨by simp [natToRevDigsAux, h10], ?_, ?_⟩
      · intro c hc
        simp [natToRevDigsAux, h10] at hc
        subst hc
        exact isDigit_digitChar h10
      · simp [natToRevDigsAux, h10, digitsToNat, digitVal_digitChar h10]
    · have hdiv : n / 10 < fuel := by
        have h1 : n / 10 < n := Nat.div_lt_self (by omega) (by omega)
        omega
      obtain ⟨hne, hdig, hval⟩ := ih (n / 10) hdiv
      refine ⟨by simp [natToRevDigsAux, h10], ?_, ?_⟩
      · intro c hc
        simp only [natToRevDigsAux, if_neg h10, List.mem_cons] at hc
        rcases hc with hc | hc
        · subst hc; exact isDigit_digitChar (Nat.mod_lt _ (by omega))
        · exact hdig c hc
      · simp only [natToRevDigsAux, if_neg h10, List.reverse_cons]
        rw [digitsToNat_append, hval, digitVal_digitChar (Nat.mod_lt _ (by omega))]
        omega

theorem natStr_data_ne_nil (n : ℕ) : (natStr n).data ≠ [] := by
  have := (natToRevDigsAux_spec (n + 1) n (Nat.lt_succ_self n)).1
  simp only [natStr]
  intro h
  rw [List.reverse_eq_nil_iff] at h
  exact this h

theorem natStr_data_digits (n : ℕ) : ∀ c ∈ (natStr n).data, c.isDigit = true := by
  intro c hc
  have := (natToRevDigsAux_spec (n + 1) n (Nat.lt_succ_self n)).2.1
  simp only [natStr, List.mem_reverse] at hc
  exact this c hc

theorem parseNatChars_natStr (n : ℕ) : parseNatChars (natStr n).data = some n := by
  have h := natToRevDigsAux_spec (n + 1) n (Nat.lt_succ_self n)
  simp only [parseNatChars]
  rw [if_neg (by simpa [List.isEmpty_iff] using natStr_data_ne_nil n)]
  rw [if_pos (by rw [List.all_eq_true]; exact natStr_data_digits n)]
  simp only [natStr]
  rw [h.2.2]

theorem natStr_small {d : ℕ} (h : d < 10) : (natStr d).data = [digitChar d] := by
  simp [natStr, natToRevDigsAux, h]

theorem splitDot_append_dot :
    ∀ (xs ys : List Char), (∀ c ∈ xs, c ≠ '.') →
      splitDot (xs ++ '.' :: ys) = (xs, some ys) := by
  intro xs
  induction xs with
  | nil => intro ys _; simp [splitDot]
  | cons c cs ih =>
    intro ys h
    have hc : c ≠ '.' := h c (by simp)
    have h2 := ih ys fun x hx => h x (by simp [hx])
    simp [List.cons_append, splitDot, if_neg hc, List.append_eq, h2]

theorem parseVersion_nonneg {s : String} {q : ℚ} (h : parseVersion s = some q) :
    0 ≤ q := by
  simp only [parseVersion] at h
  split at h
  · exact absurd h (by simp)
  · simp only [Option.some.injEq] at h
    subst h
    positivity
  · split at h
    · exact absurd h (by simp)
    · simp only [Option.some.injEq] at h
      subst h
      rw [Rat.mkRat_eq_div]
      positivity

theorem splitDot_formatVersion (q : ℚ) :
    splitDot (formatVersion q).data =
      ((natStr (tenths q / 10)).data, some ((natStr (tenths q % 10)).data)) := by
  have hdata : (formatVersion q).data =
      (natStr (tenths q / 10)).data ++ '.' :: (natStr (tenths q % 10)).data := by
    simp [formatVersion, String.data_append]
  rw [hdata]
  exact splitDot_append_dot _ _ fun c hc => by
    have hd := natStr_data_digits _ c hc
    intro he
    subst he
    simp at hd

theorem parseVersion_formatVersion (q : ℚ) :
    parseVersion (formatVersion q) = some (mkRat (tenths q) 10) := by
  have hlen : (natStr (tenths q % 10)).data.length = 1 := by
    rw [natStr_small (Nat.mod_lt _ (by omega))]
    rfl
  simp only [parseVersion, splitDot_formatVersion, parseNatChars_natStr, hlen]
  have hz : ((tenths q / 10 : ℕ) : ℤ) * 10 ^ 1 + ((tenths q % 10 : ℕ) : ℤ) =
      ((tenths q : ℕ) : ℤ) := by
    push_cast
    omega
  rw [hz]
  norm_num

theorem tenths_mkRat_ten (m : ℕ) : tenths (mkRat (m : ℤ) 10) = m := by
  set q : ℚ := mkRat (m : ℤ) 10 with hq
  have hval : q = (m : ℚ) / 10 := by
    rw [hq, Rat.mkRat_eq_div]
    norm_num
  have hd : 0 < q.den := q.den_pos
  have hcross : (q.num : ℚ) * 10 = (m : ℚ) * (q.den : ℚ) := by
    refine (div_eq_div_iff ?_ ?_).1 ((Rat.num_div_den q).trans hval) <;> positivity
  have hnn : 0 ≤ q.num := Rat.num_nonneg.mpr (by rw [hval]; positivity)
  have hint : q.num * 10 = (m : ℤ) * (q.den : ℤ) := by exact_mod_cast hcross
  have hnat : 10 * q.num.toNat = m * q.den := by
    have h1 : ((10 * q.num.toNat : ℕ) : ℤ) = ((m * q.den : ℕ) : ℤ) := by
      push_cast [Int.toNat_of_nonneg hnn]
      linarith [hint]
    exact_mod_cast h1
  simp only [tenths]
  rw [hnat]
  simp [Nat.mul_mod_left, Nat.mul_div_cancel m hd, hd]

theorem formatVersion_mkRat_tenths (q : ℚ) :
    formatVersion (mkRat ((tenths q : ℕ) : ℤ) 10) = formatVersion q := by
  simp only [formatVersion, tenths_mkRat_ten]

theorem oneFracDigit_formatVersion (q : ℚ) : oneFracDigit (formatVersion q) = true := by
  simp only [oneFracDigit, splitDot_formatVersion]
  have h1 : !(natStr (tenths q / 10)).data.isEmpty = true := by
    simp [List.isEmpty_iff, natStr_data_ne_nil]
  have h2 : (natStr (tenths q % 10)).data.length == 1 := by
    rw [natStr_small (Nat.mod_lt _ (by omega))]
    rfl
  have h3 : ((natStr (tenths q / 10)).data ++ (natStr (tenths q % 10)).data).all
      Char.isDigit = true := by
    rw [List.all_eq_true]
    intro c hc
    rcases List.mem_append.mp hc with h | h
    · exact natStr_data_digits _ c h
    · exact natStr_data_digits _ c h
  simp only [h3, Bool.and_true, Bool.and_eq_true]
  refine ⟨?_, ?_⟩
  · simp [List.isEmpty_iff, natStr_data_ne_nil]
  · simp only [beq_iff_eq]
    rw [natStr_small (Nat.mod_lt _ (by omega))]
    rfl

theorem addMembers_cons (cur : List String) (x : String) (ms : List String) :
    addMembers cur (x :: ms) =
      addMembers (if x ∈ cur then cur else cur ++ [x]) ms := rfl

theorem mem_addMembers : ∀ (ms cur : List String) (m : String),
    m ∈ addMembers cur ms ↔ m ∈ cur ∨ m ∈ ms
  | [], cur, m => by simp [addMembers]
  | x :: ms, cur, m => by
    rw [addMembers_cons, mem_addMembers ms]
    by_cases hx : x ∈ cur
    · simp only [if_pos hx, List.mem_cons]
      constructor
      · rintro (h | h)
        · exact Or.inl h
        · exact Or.inr (Or.inr h)
      · rintro (h | h | h)
        · exact Or.inl h
        · subst h
          exact Or.inl hx
        · exact Or.inr h
    · simp only [if_neg hx, List.mem_append, List.mem_singleton, List.mem_cons]
      tauto

theorem addMembers_nodup : ∀ (ms cur : List String), cur.Nodup →
    (addMembers cur ms).Nodup
  | [], _, h => h
  | x :: ms, cur, h => by
    rw [addMembers_cons]
    apply addMembers_nodup ms
    by_cases hx : x ∈ cur
    · rwa [if_pos hx]
    · rw [if_neg hx]
      refine h.append (List.nodup_singleton x) ?_
      intro a ha hb
      rw [List.mem_singleton] at hb
      subst hb
      exact hx ha

theorem addMembers_eq_append : ∀ (ms cur : List String), ms.Nodup →
    (∀ m ∈ ms, m ∉ cur) → addMembers cur ms = cur ++ ms
  | [], cur, _, _ => by simp [addMembers]
  | x :: ms, cur, hn, hd => by
    rw [addMembers_cons, if_neg (hd x (by simp))]
    rw [addMembers_eq_append ms (cur ++ [x]) (List.nodup_cons.mp hn).2 ?_]
    · simp
    · intro m hm
      simp only [List.mem_append, List.mem_singleton]
      rintro (h | h)
      · exact hd m (by simp [hm]) h
      · subst h
        exact (List.nodup_cons.mp hn).1 hm

theorem lookupD_eq_nil_of_not_mem : ∀ (dict : List (String × List String)) (k : String),
    k ∉ dict.map Prod.fst → lookupD dict k = []
  | [], _, _ => rfl
  | (k1, v) :: rest, k, h => by
    simp only [List.map_cons, List.mem_cons] at h
    push_neg at h
    simp only [lookupD, if_neg (Ne.symm h.1)]
    exact lookupD_eq_nil_of_not_mem rest k h.2

theorem lookupD_append : ∀ (d1 d2 : List (String × List String)) (k : String),
    lookupD (d1 ++ d2) k = if k ∈ d1.map Prod.fst then lookupD d1 k else lookupD d2 k
  | [], d2, k => by simp [lookupD]
  | (k1, v) :: rest, d2, k => by
    by_cases h : k1 = k
    · subst h
      simp [lookupD]
    · have hcons : lookupD ((k1, v) :: (rest ++ d2)) k = lookupD (rest ++ d2) k := by
        simp [lookupD, h]
      rw [List.cons_append, hcons, lookupD_append rest d2 k]
      have hlook : lookupD ((k1, v) :: rest) k = lookupD rest k := by
        simp [lookupD, h]
      by_cases hm : k ∈ rest.map Prod.fst
      · rw [if_pos hm, if_pos (by simp [hm]), hlook]
      · rw [if_neg hm, if_neg ?_]
        intro hmem
        simp only [List.map_cons, List.mem_cons] at hmem
        rcases hmem with he | he
        · exact h he.symm
        · exact hm he

theorem updateKey_map_fst : ∀ (dict : List (String × List String)) (t : String)
    (ms : List String), (updateKey dict t ms).map Prod.fst = dict.map Prod.fst
  | [], _, _ => rfl
  | (k, v) :: rest, t, ms => by
    by_cases h : k = t <;> simp [updateKey, h, updateKey_map_fst rest t ms]

theorem lookupD_updateKey_self : ∀ (dict : List (String × List String)) (t : String)
    (ms : List String), t ∈ dict.map Prod.fst →
    lookupD (updateKey dict t ms) t = addMembers (lookupD dict t) ms
  | [], t, ms, h => by simp at h
  | (k, v) :: rest, t, ms, h => by
    by_cases hk : k = t
    · subst hk
      simp [updateKey, lookupD]
    · simp only [updateKey, if_neg hk, lookupD, if_neg hk]
      apply lookupD_updateKey_self rest t ms
      simp only [List.map_cons, List.mem_cons] at h
      rcases h with h1 | h1
      · exact absurd h1.symm hk
      · exact h1

theorem lookupD_updateKey_other : ∀ (dict : List (String × List String)) (t : String)
    (ms : List String) (k : String), k ≠ t →
    lookupD (updateKey dict t ms) k = lookupD dict k
  | [], _, _, _, _ => rfl
  | (k1, v) :: rest, t, ms, k, h => by
    by_cases hk : k1 = t
    · subst hk
      have : k1 ≠ k := fun he => h (he ▸ rfl)
      simp only [updateKey, if_pos rfl, lookupD, if_neg this]
      exact lookupD_updateKey_other rest k1 ms k h
    · by_cases hk1 : k1 = k
      · subst hk1
        simp [updateKey, if_neg hk, lookupD]
      · simp only [updateKey, if_neg hk, lookupD, if_neg hk1]
        exact lookupD_updateKey_other rest t ms k h

theorem addRecord_map_fst (dict : List (String × List String)) (r : TypeRecord) :
    (addRecord dict r).map Prod.fst =
      if r.name ∈ dict.map Prod.fst then dict.map Prod.fst
      else dict.map Prod.fst ++ [r.name] := by
  simp only [addRecord]
  by_cases h : r.name ∈ dict.map Prod.fst
  · simp [h, updateKey_map_fst]
  · simp [h, updateKey_map_fst]

theorem mem_keys_addRecord {dict : List (String × List String)} {r : TypeRecord}
    {T : String} :
    T ∈ (addRecord dict r).map Prod.fst ↔ T ∈ dict.map Prod.fst ∨ T = r.name := by
  rw [addRecord_map_fst]
  by_cases h : r.name ∈ dict.map Prod.fst
  · rw [if_pos h]
    constructor
    · exact Or.inl
    · rintro (h1 | h1)
      · exact h1
      · exact h1 ▸ h
  · rw [if_neg h]
    simp

theorem lookupD_addRecord_self (dict : List (String × List String)) (r : TypeRecord) :
    lookupD (addRecord dict r) r.name =
      addMembers (lookupD dict r.name) (normalizeMembers r.members) := by
  simp only [addRecord]
  by_cases h : r.name ∈ dict.map Prod.fst
  · rw [if_pos h, lookupD_updateKey_self _ _ _ h]
  · rw [if_neg h, lookupD_updateKey_self _ _ _ (by simp), lookupD_append]
    rw [if_neg h, lookupD_eq_nil_of_not_mem _ _ h]
    simp [lookupD]

theorem lookupD_addRecord_other {dict : List (String × List String)} {r : TypeRecord}
    {k : String} (h : k ≠ r.name) :
    lookupD (addRecord dict r) k = lookupD dict k := by
  simp only [addRecord]
  by_cases hm : r.name ∈ dict.map Prod.fst
  · rw [if_pos hm, lookupD_updateKey_other _ _ _ _ h]
  · rw [if_neg hm, lookupD_updateKey_other _ _ _ _ h, lookupD_append]
    by_cases hk : k ∈ dict.map Prod.fst
    · rw [if_pos hk]
    · rw [if_neg hk, lookupD_eq_nil_of_not_mem _ _ hk]
      simp [lookupD, Ne.symm h]

theorem keys_nodup_addRecord {dict : List (String × List String)} {r : TypeRecord}
    (h : (dict.map Prod.fst).Nodup) : ((addRecord dict r).map Prod.fst).Nodup := by
  rw [addRecord_map_fst]
  by_cases hm : r.name ∈ dict.map Prod.fst
  · rwa [if_pos hm]
  · rw [if_neg hm]
    refine h.append (List.nodup_singleton _) ?_
    intro a ha hb
    rw [List.mem_singleton] at hb
    subst hb
    exact hm ha

theorem values_nodup_addRecord {dict : List (String × List String)} {r : TypeRecord}
    (h : ∀ k, (lookupD dict k).Nodup) : ∀ k, (lookupD (addRecord dict r) k).Nodup := by
  intro k
  by_cases hk : k = r.name
  · subst hk
    rw [lookupD_addRecord_self]
    exact addMembers_nodup _ _ (h _)
  · rw [lookupD_addRecord_other hk]
    exact h k

theorem mem_keys_foldl_addRecord : ∀ (rs : List TypeRecord)
    (dict : List (String × List String)) (T : String),
    T ∈ (rs.foldl addRecord dict).map Prod.fst ↔
      T ∈ dict.map Prod.fst ∨ ∃ r ∈ rs, r.name = T
  | [], dict, T => by simp
  | r :: rs, dict, T => by
    rw [List.foldl_cons, mem_keys_foldl_addRecord rs, mem_keys_addRecord]
    constructor
    · rintro ((h | h) | h)
      · exact Or.inl h
      · exact Or.inr ⟨r, by simp, h.symm⟩
      · rcases h with ⟨r1, hr1, hname⟩
        exact Or.inr ⟨r1, by simp [hr1], hname⟩
    · rintro (h | ⟨r1, hr1, hname⟩)
      · exact Or.inl (Or.inl h)
      · rcases List.mem_cons.mp hr1 with h1 | h1
        · subst h1
          exact Or.inl (Or.inr hname.symm)
        · exact Or.inr ⟨r1, h1, hname⟩

theorem mem_lookupD_foldl_addRecord : ∀ (rs : List TypeRecord)
    (dict : List (String × List String)) (T m : String),
    m ∈ lookupD (rs.foldl addRecord dict) T ↔
      m ∈ lookupD dict T ∨ ∃ r ∈ rs, r.name = T ∧ m ∈ normalizeMembers r.members
  | [], dict, T, m => by simp
  | r :: rs, dict, T, m => by
    rw [List.foldl_cons, mem_lookupD_foldl_addRecord rs]
    by_cases hT : T = r.name
    · subst hT
      rw [lookupD_addRecord_self, mem_addMembers]
      constructor
      · rintro ((h | h) | h)
        · exact Or.inl h
        · exact Or.inr ⟨r, by simp, rfl, h⟩
        · rcases h with ⟨r1, hr1, hname, hm⟩
          exact Or.inr ⟨r1, by simp [hr1], hname, hm⟩
      · rintro (h | ⟨r1, hr1, hname, hm⟩)
        · exact Or.inl (Or.inl h)
        · rcases List.mem_cons.mp hr1 with h1 | h1
          · subst h1
            exact Or.inl (Or.inr hm)
          · exact Or.inr ⟨r1, h1, hname, hm⟩
    · rw [lookupD_addRecord_other hT]
      constructor
      · rintro (h | ⟨r1, hr1, hname, hm⟩)
        · exact Or.inl h
        · exact Or.inr ⟨r1, by simp [hr1], hname, hm⟩
      · rintro (h | ⟨r1, hr1, hname, hm⟩)
        · exact Or.inl h
        · rcases List.mem_cons.mp hr1 with h1 | h1
          · subst h1
            exact absurd hname.symm hT
          · exact Or.inr ⟨r1, h1, hname, hm⟩

theorem keys_nodup_foldl_addRecord : ∀ (rs : List TypeRecord)
    (dict : List (String × List String)), (dict.map Prod.fst).Nodup →
    ((rs.foldl addRecord dict).map Prod.fst).Nodup
  | [], _, h => h
  | r :: rs, dict, h =>
    keys_nodup_foldl_addRecord rs (addRecord dict r) (keys_nodup_addRecord h)

theorem values_nodup_foldl_addRecord : ∀ (rs : List TypeRecord)
    (dict : List (String × List String)), (∀ k, (lookupD dict k).Nodup) →
    ∀ k, (lookupD (rs.foldl addRecord dict) k).Nodup
  | [], _, h => h
  | r :: rs, dict, h =>
    values_nodup_foldl_addRecord rs (addRecord dict r) (values_nodup_addRecord h)

theorem runLoop_cons_valid (d : ValidDoc) (rest : List RawDoc) (st : MergeState)
    (h : (parseVersion d.version).isSome) :
    runLoop (d.toRaw :: rest) st = runLoop rest (stepValidState st d) := by
  obtain ⟨x, hx⟩ := Option.isSome_iff_exists.mp h
  simp only [runLoop, ValidDoc.toRaw, hx, stepValidState, parsedVersion, procTypes,
    Option.getD_some]

theorem runLoop_valid : ∀ (ds : List ValidDoc) (st : MergeState),
    (∀ d ∈ ds, (parseVersion d.version).isSome) →
    runLoop (ds.map ValidDoc.toRaw) st = .ok (foldValid st ds)
  | [], _, _ => rfl
  | d :: ds, st, h => by
    rw [List.map_cons, runLoop_cons_valid d _ st (h d (by simp)),
      runLoop_valid ds _ (fun d1 hd1 => h d1 (by simp [hd1]))]
    rfl

theorem foldValid_package_names : ∀ (ds : List ValidDoc) (st : MergeState),
    (foldValid st ds).package_names = st.package_names ++ ds.map (fun d => d.fullName)
  | [], st => by simp [foldValid]
  | d :: ds, st => by
    show (foldValid (stepValidState st d) ds).package_names = _
    rw [foldValid_package_names ds]
    simp [stepValidState]

theorem foldValid_types_dict : ∀ (ds : List ValidDoc) (st : MergeState),
    (foldValid st ds).types_dict = (catTypes ds).foldl addRecord st.types_dict
  | [], st => by simp [foldValid, catTypes]
  | d :: ds, st => by
    show (foldValid (stepValidState st d) ds).types_dict = _
    rw [foldValid_types_dict ds]
    simp [stepValidState, procTypes, catTypes, List.foldl_append]

theorem foldValid_template_some : ∀ (ds : List ValidDoc) (st : MergeState) (t : RawDoc),
    st.template = some t → (foldValid st ds).template = some t
  | [], _, _, h => h
  | d :: ds, st, t, h => by
    show (foldValid (stepValidState st d) ds).template = some t
    exact foldValid_template_some ds _ t (by simp [stepValidState, h])

theorem foldValid_template_first (d : ValidDoc) (ds : List ValidDoc) (st : MergeState)
    (h : st.template = none) :
    (foldValid st (d :: ds)).template = some d.toRaw := by
  show (foldValid (stepValidState st d) ds).template = _
  exact foldValid_template_some ds _ _ (by simp [stepValidState, h])

theorem stepVersion_none (x : ℚ) : stepVersion none x = x := by
  simp [stepVersion]

theorem stepVersion_some {m : ℚ} (hm : 0 ≤ m) {x : ℚ} (hx : 0 ≤ x) :
    stepVersion (some m) x = max m x := by
  simp only [stepVersion]
  by_cases h : m = 0
  · subst h
    simp [max_eq_right hx]
  · simp [h]

theorem foldValid_max_version : ∀ (ds : List ValidDoc) (st : MergeState) (m : ℚ),
    st.max_version = some m → 0 ≤ m →
    (∀ d ∈ ds, (parseVersion d.version).isSome) →
    (foldValid st ds).max_version =
      some (ds.foldl (fun a d => max a (parsedVersion d)) m)
  | [], _, m, hm, _, _ => by simpa [foldValid]
  | d :: ds, st, m, hm, hm0, hp => by
    show (foldValid (stepValidState st d) ds).max_version = _
    have hpd : 0 ≤ parsedVersion d := by
      obtain ⟨x, hx⟩ := Option.isSome_iff_exists.mp (hp d (by simp))
      simpa [parsedVersion, hx] using parseVersion_nonneg hx
    refine (foldValid_max_version ds (stepValidState st d) (max m (parsedVersion d))
      ?_ ?_ ?_).trans rfl
    · simp [stepValidState, hm, stepVersion_some hm0 hpd]
    · exact le_max_of_le_left hm0
    · exact fun d1 h1 => hp d1 (by simp [h1])

theorem parsedVersion_nonneg {d : ValidDoc} (h : (parseVersion d.version).isSome) :
    0 ≤ parsedVersion d := by
  obtain ⟨x, hx⟩ := Option.isSome_iff_exists.mp h
  simpa [parsedVersion, hx] using parseVersion_nonneg hx

theorem foldValid_max_version_first (d : ValidDoc) (ds : List ValidDoc)
    (st : MergeState) (h : st.max_version = none)
    (hp : ∀ d1 ∈ d :: ds, (parseVersion d1.version).isSome) :
    (foldValid st (d :: ds)).max_version =
      some (listMaxD ((d :: ds).map parsedVersion)) := by
  show (foldValid (stepValidState st d) ds).max_version = _
  have hst : (stepValidState st d).max_version = some (parsedVersion d) := by
    simp [stepValidState, h, stepVersion_none]
  rw [foldValid_max_version ds _ _ hst (parsedVersion_nonneg (hp d (by simp)))
    (fun d1 h1 => hp d1 (by simp [h1]))]
  simp [listMaxD, List.foldl_map]

theorem StInv_initState : StInv initState :=
  ⟨List.nodup_nil, fun _ => List.nodup_nil, fun _ h => by simp [initState] at h⟩

theorem StInv_runLoop : ∀ (ds : List RawDoc) (st st1 : MergeState),
    runLoop ds st = .ok st1 → StInv st → StInv st1
  | [], st, st1, h, hinv => by
    rw [runLoop] at h
    cases h
    exact hinv
  | d :: ds, st, st1, h, hinv => by
    rcases d with ⟨_ | ⟨fn, ver, tys, desc, ex⟩⟩
    · rw [runLoop] at h
      cases Except.ok.inj h
      exact hinv
    · rcases ver with _ | ver
      · simp only [runLoop] at h
        cases Except.ok.inj h
        exact hinv
      · rcases tys with _ | tys
        · simp only [runLoop] at h
          cases Except.ok.inj h
          exact hinv
        · rcases fn with _ | fn
          · simp only [runLoop] at h
            exact Except.noConfusion h
          · rcases hpv : parseVersion ver with _ | x
            · simp only [runLoop, hpv] at h
              exact Except.noConfusion h
            · simp only [runLoop, hpv] at h
              refine StInv_runLoop ds _ st1 h ⟨?_, ?_, ?_⟩
              · simp only [procTypes]
                exact keys_nodup_foldl_addRecord _ _ hinv.1
              · simp only [procTypes]
                exact values_nodup_foldl_addRecord _ _ hinv.2.1
              · intro q hq
                simp only [Option.some.injEq] at hq
                rw [← hq]
                simp only [stepVersion]
                exact le_trans (parseVersion_nonneg hpv) (le_max_right _ _)

theorem finalize_ok_elim {st : MergeState} {o : MergedPackage} (h : finalize st = .ok o) :
    ∃ d p v, st.template = some d ∧ d.package = some p ∧ st.max_version = some v ∧
      o = ⟨"Merged_Package",
           descHeader ++ String.intercalate "\n" (sortStr st.package_names),
           formatVersion v, renderTypes st.types_dict, p.extra⟩ := by
  rcases st with ⟨td, pn, mv, _ | ⟨_ | p⟩⟩
  · exact absurd h (by simp [finalize])
  · exact absurd h (by simp [finalize])
  · rcases mv with _ | v
    · exact absurd h (by simp [finalize])
    · refine ⟨⟨some p⟩, p, v, rfl, rfl, rfl, ?_⟩
      simp only [finalize] at h
      cases h
      rfl

theorem merge_ok_elim {ds : List RawDoc} {o : MergedPackage} (h : merge ds = .ok o) :
    ∃ st, runLoop ds initState = .ok st ∧ finalize st = .ok o := by
  simp only [merge] at h
  rcases hr : runLoop ds initState with e | st
  · rw [hr] at h
    exact absurd h (by simp)
  · rw [hr] at h
    exact ⟨st, rfl, h⟩

theorem sorted_strict_of_nodup {l : List String}
    (hs : List.Sorted (fun a b => strLe a b = true) l) (hn : l.Nodup) :
    List.Pairwise (fun a b => strLt a b = true) l :=
  (List.Pairwise.and hs hn).imp fun {a b} h => (strLt_iff a b).mpr ⟨h.1, h.2⟩

theorem renderTypes_sorted {dict : List (String × List String)}
    (hk : (dict.map Prod.fst).Nodup) :
    List.Pairwise (fun a b => strLt a.name b.name = true) (renderTypes dict) := by
  have hp := sorted_strict_of_nodup (sortStr_sorted (dict.map Prod.fst)) (sortStr_nodup hk)
  rw [renderTypes, List.pairwise_map]
  simpa using hp

theorem renderTypes_members_sorted {dict : List (String × List String)}
    (hv : ∀ k, (lookupD dict k).Nodup) :
    ∀ r ∈ renderTypes dict, List.Pairwise (fun a b => strLt a b = true) r.members := by
  intro r hr
  simp only [renderTypes, List.mem_map] at hr
  obtain ⟨nm, _, rfl⟩ := hr
  exact sorted_strict_of_nodup (sortStr_sorted _) (sortStr_nodup (hv nm))

theorem find?_map_name (f : String → OutTypeRecord) (hf : ∀ nm, (f nm).name = nm) :
    ∀ (names : List String) (T : String), T ∈ names →
      (names.map f).find? (fun r => r.name == T) = some (f T)
  | [], T, h => absurd h (by simp)
  | nm :: names, T, h => by
    by_cases he : nm = T
    · subst he
      simp [List.find?, hf]
    · have hne : ((f nm).name == T) = false := by simp [hf, he]
      rw [List.map_cons]
      simp only [List.find?, hne]
      refine find?_map_name f hf names T ?_
      rcases List.mem_cons.mp h with h1 | h1
      · exact absurd h1.symm he
      · exact h1

theorem mem_catTypes : ∀ {ds : List ValidDoc} {r : TypeRecord},
    r ∈ catTypes ds ↔ ∃ d ∈ ds, r ∈ normalizeTypes d.types := by
  intro ds r
  induction ds with
  | nil => simp [catTypes]
  | cons d ds ih =>
    simp only [catTypes, List.mem_append, ih, List.mem_cons]
    constructor
    · rintro (h | ⟨d1, hd1, hr1⟩)
      · exact ⟨d, Or.inl rfl, h⟩
      · exact ⟨d1, Or.inr hd1, hr1⟩
    · rintro ⟨d1, h1 | h1, hr1⟩
      · subst h1
        exact Or.inl hr1
      · exact Or.inr ⟨d1, h1, hr1⟩

theorem merge_valid_eq (d0 : ValidDoc) (ds : List ValidDoc)
    (hp : ∀ d ∈ d0 :: ds, (parseVersion d.version).isSome) :
    merge ((d0 :: ds).map ValidDoc.toRaw) =
      .ok { fullName := "Merged_Package"
            description := descHeader ++
              String.intercalate "\n" (sortStr ((d0 :: ds).map (fun d => d.fullName)))
            version := formatVersion (listMaxD ((d0 :: ds).map parsedVersion))
            types := renderTypes ((catTypes (d0 :: ds)).foldl addRecord [])
            extra := d0.extra } := by
  have hrun := runLoop_valid (d0 :: ds) initState hp
  have ht := foldValid_template_first d0 ds initState rfl
  have hv := foldValid_max_version_first d0 ds initState rfl hp
  have hn := foldValid_package_names (d0 :: ds) initState
  have hd := foldValid_types_dict (d0 :: ds) initState
  simp only [merge]
  rw [hrun]
  simp only [finalize, ht, hv, hn, hd]
  simp [ValidDoc.toRaw, initState]

/-- C3: for a non-empty batch of valid manifests whose versions parse, the
output version is the numeric maximum of the input versions (compared as
rationals, not as strings), rendered with exactly one digit after the
decimal point. -/
theorem merge_version_is_numeric_max (d0 : ValidDoc) (ds : List ValidDoc)
    (hp : ∀ d ∈ d0 :: ds, (parseVersion d.version).isSome) :
    ∃ o, merge ((d0 :: ds).map ValidDoc.toRaw) = .ok o ∧
      o.version = formatVersion (listMaxD ((d0 :: ds).map parsedVersion)) ∧
      oneFracDigit o.version = true :=
  ⟨_, merge_valid_eq d0 ds hp, rfl, oneFracDigit_formatVersion _⟩

/-- C3 witness: the spec's example, versions "58.0" and "59" merge to
version "59.0". -/
theorem merge_version_is_numeric_max_witness :
    ∃ o, merge [ValidDoc.toRaw ⟨"A", "58.0", .one ⟨"ApexClass", .one "Foo"⟩, none, []⟩,
                ValidDoc.toRaw ⟨"B", "59", .one ⟨"Layout", .one "X"⟩, none, []⟩] = .ok o ∧
      o.version = formatVersion (listMaxD
        ([⟨"A", "58.0", .one ⟨"ApexClass", .one "Foo"⟩, none, []⟩,
          ⟨"B", "59", .one ⟨"Layout", .one "X"⟩, none, []⟩].map parsedVersion)) ∧
      oneFracDigit o.version = true := by
  have h := merge_version_is_numeric_max
    ⟨"A", "58.0", .one ⟨"ApexClass", .one "Foo"⟩, none, []⟩
    [⟨"B", "59", .one ⟨"Layout", .one "X"⟩, none, []⟩]
    (by decide)
  simpa using h

/-- C9: the merged document is named by the constant "Merged_Package" and
its description is the fixed header followed by the names of the valid
inputs, sorted alphabetically and joined by newlines. -/
theorem merge_name_and_description (d0 : ValidDoc) (ds : List ValidDoc)
    (hp : ∀ d ∈ d0 :: ds, (parseVersion d.version).isSome) :
    ∃ o, merge ((d0 :: ds).map ValidDoc.toRaw) = .ok o ∧
      o.fullName = "Merged_Package" ∧
      o.description =
        "This package.xml was created by merging the following packages:\n" ++
          String.intercalate "\n" (sortStr ((d0 :: ds).map (fun d => d.fullName))) :=
  ⟨_, merge_valid_eq d0 ds hp, rfl, rfl⟩

/-- C9 witness: two valid manifests named "B" and "A" produce the fixed
output name and the header-plus-sorted-names description. -/
theorem merge_name_and_description_witness :
    ∃ o, merge [ValidDoc.toRaw ⟨"B", "1.0", .one ⟨"T", .one "x"⟩, none, []⟩,
                ValidDoc.toRaw ⟨"A", "2.0", .one ⟨"U", .one "y"⟩, none, []⟩] = .ok o ∧
      o.fullName = "Merged_Package" ∧
      o.description =
        "This package.xml was created by merging the following packages:\n" ++
          String.intercalate "\n" (sortStr (["B", "A"])) := by
  have h := merge_name_and_description
    ⟨"B", "1.0", .one ⟨"T", .one "x"⟩, none, []⟩
    [⟨"A", "2.0", .one ⟨"U", .one "y"⟩, none, []⟩]
    (by decide)
  simpa using h

/-- C4: a member contributed for type `T` by at least one valid manifest
appears exactly once in the output's member list for `T`, however many
manifests contributed it. -/
theorem merge_dedups_members (d0 : ValidDoc) (ds : List ValidDoc) (T m : String)
    (hp : ∀ d ∈ d0 :: ds, (parseVersion d.version).isSome)
    (hm : ∃ d ∈ d0 :: ds, ∃ r ∈ normalizeTypes d.types,
      r.name = T ∧ m ∈ normalizeMembers r.members) :
    ∃ o, merge ((d0 :: ds).map ValidDoc.toRaw) = .ok o ∧
      (outMembers o T).count m = 1 := by
  refine ⟨_, merge_valid_eq d0 ds hp, ?_⟩
  obtain ⟨d, hd, r, hr, hname, hmem⟩ := hm
  have hrcat : r ∈ catTypes (d0 :: ds) := mem_catTypes.mpr ⟨d, hd, hr⟩
  have hkey : T ∈ ((catTypes (d0 :: ds)).foldl addRecord []).map Prod.fst :=
    (mem_keys_foldl_addRecord _ _ _).mpr (Or.inr ⟨r, hrcat, hname⟩)
  have hlook : m ∈ lookupD ((catTypes (d0 :: ds)).foldl addRecord []) T :=
    (mem_lookupD_foldl_addRecord _ _ _ _).mpr (Or.inr ⟨r, hrcat, hname, hmem⟩)
  have hnodup : (lookupD ((catTypes (d0 :: ds)).foldl addRecord []) T).Nodup :=
    values_nodup_foldl_addRecord _ _ (fun k => by simp [lookupD]) T
  have hfind := find?_map_name
    (fun nm => ⟨sortStr (lookupD ((catTypes (d0 :: ds)).foldl addRecord []) nm), nm⟩)
    (fun nm => rfl) (sortStr (((catTypes (d0 :: ds)).foldl addRecord []).map Prod.fst))
    T (mem_sortStr.mpr hkey)
  simp only [outMembers, renderTypes, hfind]
  exact List.count_eq_one_of_mem (sortStr_nodup hnodup) (mem_sortStr.mpr hlook)

/-- C4 witness: member "Foo" of type "ApexClass", contributed by both
manifests, appears exactly once in the output. -/
theorem merge_dedups_members_witness :
    ∃ o, merge [ValidDoc.toRaw ⟨"A", "1.0", .one ⟨"ApexClass", .one "Foo"⟩, none, []⟩,
                ValidDoc.toRaw ⟨"B", "2.0", .one ⟨"ApexClass", .many ["Foo", "Bar"]⟩,
                  none, []⟩] = .ok o ∧
      (outMembers o "ApexClass").count "Foo" = 1 := by
  have h := merge_dedups_members
    ⟨"A", "1.0", .one ⟨"ApexClass", .one "Foo"⟩, none, []⟩
    [⟨"B", "2.0", .one ⟨"ApexClass", .many ["Foo", "Bar"]⟩, none, []⟩]
    "ApexClass" "Foo" (by decide)
    ⟨⟨"A", "1.0", .one ⟨"ApexClass", .one "Foo"⟩, none, []⟩, by simp,
      ⟨"ApexClass", .one "Foo"⟩, by simp [normalizeTypes], rfl,
      by simp [normalizeMembers]⟩
  simpa using h

/-- C5: in every successful merge output, type records are strictly
ascending by name and every member list is strictly ascending, in plain
code-point lexicographic order (not locale- or case-aware). -/
theorem merge_output_sorted {ds : List RawDoc} {o : MergedPackage}
    (h : merge ds = .ok o) :
    List.Pairwise (fun a b => strLt a.name b.name = true) o.types ∧
    ∀ r ∈ o.types, List.Pairwise (fun a b => strLt a b = true) r.members := by
  obtain ⟨st, hrun, hfin⟩ := merge_ok_elim h
  have hinv := StInv_runLoop ds initState st hrun StInv_initState
  obtain ⟨d, p, v, _, _, _, rfl⟩ := finalize_ok_elim hfin
  exact ⟨renderTypes_sorted hinv.1, renderTypes_members_sorted hinv.2.1⟩

/-- C5 witness: a concrete merge with unsorted inputs, whose output is
sorted by type name and by member. -/
theorem merge_output_sorted_witness :
    List.Pairwise (fun a b => strLt a.name b.name = true)
      [OutTypeRecord.mk ["Bar", "Foo"] "ApexClass", OutTypeRecord.mk ["X"] "Layout"] ∧
    ∀ r ∈ [OutTypeRecord.mk ["Bar", "Foo"] "ApexClass", OutTypeRecord.mk ["X"] "Layout"],
      List.Pairwise (fun a b => strLt a b = true) r.members := by
  have h := @merge_output_sorted
    [ValidDoc.toRaw ⟨"A", "58.0", .one ⟨"Layout", .one "X"⟩, none, []⟩,
     ValidDoc.toRaw ⟨"B", "59", .many [⟨"ApexClass", .many ["Foo", "Bar"]⟩], none, []⟩]
    { fullName := "Merged_Package"
      description := descHeader ++ "A\nB"
      version := "59.0"
      types := [⟨["Bar", "Foo"], "ApexClass"⟩, ⟨["X"], "Layout"⟩]
      extra := [] } (by decide)
  simpa using h

/-- C10: a document that passes the validity check (root `Package` record
with `version` and `types`) but lacks `fullName` makes merge raise the
uncaught KeyError of line 110 instead of skipping the document or
producing an output: the validator never checks the name field the
aggregation reads. -/
theorem merge_keyerror_on_missing_fullname :
    merge [⟨some ⟨none, some "1.0", some (.many [⟨"T", .one "x"⟩]), none, []⟩⟩] =
      .error .keyError := by decide

/-- C2 counterexample: on a batch with zero valid documents, merge fails
with the TypeError from subscripting the `None` template (line 142), and
in particular does not raise the spec's NoValidInputError. -/
theorem merge_zero_valid_counterexample :
    merge [⟨none⟩] = .error .typeErrorNoneTemplate ∧
    merge [⟨none⟩] ≠ .error .noValidInput := by decide

/-- C2 amended: with zero valid documents merge does fail — with the
uncaught TypeError from `template['Package']` on the unset template — and
produces no output document; it does not raise a dedicated
NoValidInputError. -/
theorem merge_zero_valid_fails (ds : List RawDoc)
    (h : ∀ d ∈ ds, isValid d = false) :
    merge ds = .error .typeErrorNoneTemplate := by
  cases ds with
  | nil => rfl
  | cons d ds =>
    have hd := h d (by simp)
    have hbreak : runLoop (d :: ds) initState = .ok initState := by
      rcases d with ⟨_ | ⟨fn, ver, tys, desc, ex⟩⟩
      · simp [runLoop]
      · rcases ver with _ | ver
        · simp [runLoop]
        · rcases tys with _ | tys
          · simp [runLoop]
          · simp [isValid] at hd
    simp only [merge]
    rw [hbreak]
    rfl

/-- C2 amended witness: the single-document batch whose document has no
root record. -/
theorem merge_zero_valid_fails_witness :
    (∀ d ∈ [RawDoc.mk none], isValid d = false) ∧
    merge [RawDoc.mk none] = .error .typeErrorNoneTemplate :=
  ⟨by decide, merge_zero_valid_fails [⟨none⟩] (by decide)⟩

/-- C1: the loop executes `break`, not `continue`, at the first invalid
document (line 105). With [valid, invalid, valid], the output incorporates
only the first document's types and name; the third valid document is
dropped entirely (its type "T3" and name "P3" are absent). -/
theorem merge_break_drops_rest_eval :
    merge [ValidDoc.toRaw ⟨"P1", "1.0", .one ⟨"T1", .one "a"⟩, none, []⟩,
           ⟨some ⟨some "P2", none, some (.one ⟨"T2", .one "b"⟩), none, []⟩⟩,
           ValidDoc.toRaw ⟨"P3", "2.0", .one ⟨"T3", .one "c"⟩, none, []⟩] =
      .ok { fullName := "Merged_Package"
            description := descHeader ++ "P1"
            version := "1.0"
            types := [⟨["a"], "T1"⟩]
            extra := [] } := by decide

/-- C7: because of the same `break`, permuting the inputs changes the
`types` content whenever an invalid document changes position: with the
invalid document last, both valid documents contribute; with it in the
middle, the second valid document is dropped. -/
theorem merge_permutation_changes_types_eval :
    merge [ValidDoc.toRaw ⟨"A", "1.0", .one ⟨"TA", .one "x"⟩, none, []⟩,
           ValidDoc.toRaw ⟨"B", "1.0", .one ⟨"TB", .one "y"⟩, none, []⟩,
           ⟨some ⟨some "C", none, some (.one ⟨"TC", .one "z"⟩), none, []⟩⟩] =
      .ok { fullName := "Merged_Package"
            description := descHeader ++ "A\nB"
            version := "1.0"
            types := [⟨["x"], "TA"⟩, ⟨["y"], "TB"⟩]
            extra := [] } ∧
    merge [ValidDoc.toRaw ⟨"A", "1.0", .one ⟨"TA", .one "x"⟩, none, []⟩,
           ⟨some ⟨some "C", none, some (.one ⟨"TC", .one "z"⟩), none, []⟩⟩,
           ValidDoc.toRaw ⟨"B", "1.0", .one ⟨"TB", .one "y"⟩, none, []⟩] =
      .ok { fullName := "Merged_Package"
            description := descHeader ++ "A"
            version := "1.0"
            types := [⟨["x"], "TA"⟩]
            extra := [] } ∧
    ([⟨["x"], "TA"⟩, ⟨["y"], "TB"⟩] : List OutTypeRecord) ≠ [⟨["x"], "TA"⟩] := by
  decide

theorem addRecord_normalizeRecordShape (dict : List (String × List String))
    (r : TypeRecord) : addRecord dict (normalizeRecordShape r) = addRecord dict r := rfl

theorem foldl_addRecord_map_shape : ∀ (rs : List TypeRecord)
    (dict : List (String × List String)),
    (rs.map normalizeRecordShape).foldl addRecord dict = rs.foldl addRecord dict
  | [], _ => rfl
  | r :: rs, dict => by
    rw [List.map_cons, List.foldl_cons, List.foldl_cons, addRecord_normalizeRecordShape]
    exact foldl_addRecord_map_shape rs _

theorem procTypes_shape (dict : List (String × List String)) (tys : TypesField) :
    procTypes dict (.many ((normalizeTypes tys).map normalizeRecordShape)) =
      procTypes dict tys := by
  simp only [procTypes, normalizeTypes]
  exact foldl_addRecord_map_shape _ _

theorem finalize_stRel {st1 st2 : MergeState} (h : stRel st1 st2) :
    finalize st1 = finalize st2 := by
  obtain ⟨h1, h2, h3, h4⟩ := h
  rcases ht : st2.template with _ | t
  · rw [ht] at h4
    simp only [finalize, h4, ht, Option.map_none']
  · rw [ht] at h4
    simp only [Option.map_some'] at h4
    rcases t with ⟨_ | p⟩
    · simp only [finalize, h4, ht, normalizeDocShape]
    · simp only [finalize, h4, ht, normalizeDocShape, h1, h2, h3]

theorem runLoop_shape_rel : ∀ (ds : List RawDoc) (st1 st2 : MergeState),
    stRel st1 st2 → resRel (runLoop (ds.map normalizeDocShape) st1) (runLoop ds st2)
  | [], _, _, h => h
  | d :: ds, st1, st2, h => by
    rcases d with ⟨_ | ⟨fn, ver, tys, desc, ex⟩⟩
    · simpa only [List.map_cons, normalizeDocShape, runLoop] using h
    · rcases ver with _ | ver
      · simpa only [List.map_cons, normalizeDocShape, runLoop] using h
      · rcases tys with _ | tys
        · simpa only [List.map_cons, normalizeDocShape, runLoop, Option.map_none'] using h
        · rcases fn with _ | fn
          · simp only [List.map_cons, normalizeDocShape, runLoop, Option.map_some']
            rfl
          · rcases hpv : parseVersion ver with _ | x
            · simp only [List.map_cons, normalizeDocShape, runLoop, Option.map_some', hpv]
              rfl
            · simp only [List.map_cons, normalizeDocShape, runLoop, Option.map_some', hpv]
              obtain ⟨hh1, hh2, hh3, hh4⟩ := h
              refine runLoop_shape_rel ds _ _ ⟨?_, ?_, ?_, ?_⟩
              · simp only [procTypes_shape, hh1]
              · simp only [hh2]
              · simp only [hh3]
              · rcases ht : st2.template with _ | t
                · rw [ht, Option.map_none'] at hh4
                  simp only [hh4, ht, Option.map_some', normalizeDocShape]
                · rw [ht, Option.map_some'] at hh4
                  simp only [hh4, ht, Option.map_some']

/-- C8: a `types` entry that is a single record is treated as the
one-element list of that record, and a `members` entry that is a bare
string as the one-element list of that string; normalizing every document
of a batch into list shape leaves the merge result unchanged, so documents
of either shape contribute exactly what their normalized forms would. -/
theorem merge_shape_normalization (ds : List RawDoc) :
    merge (ds.map normalizeDocShape) = merge ds := by
  have h := runLoop_shape_rel ds initState initState ⟨rfl, rfl, rfl, rfl⟩
  rcases h1 : runLoop (ds.map normalizeDocShape) initState with e1 | st1 <;>
    rcases h2 : runLoop ds initState with e2 | st2 <;> rw [h1, h2] at h
  · simp only [merge, h1, h2]
    exact congrArg Except.error h
  · exact absurd h (by simp [resRel])
  · exact absurd h (by simp [resRel])
  · simp only [merge, h1, h2]
    exact finalize_stRel h

/-- C8 witness: a document whose `types` is a single record with a bare
string member merges identically to its normalized list-shaped form. -/
theorem merge_shape_normalization_witness :
    merge ([⟨some ⟨some "A", some "1.0", some (.one ⟨"T", .one "x"⟩), none, []⟩⟩].map
        normalizeDocShape) =
      merge [⟨some ⟨some "A", some "1.0", some (.one ⟨"T", .one "x"⟩), none, []⟩⟩] :=
  merge_shape_normalization _

theorem updateKey_append : ∀ (d1 d2 : List (String × List String)) (t : String)
    (ms : List String),
    updateKey (d1 ++ d2) t ms = updateKey d1 t ms ++ updateKey d2 t ms
  | [], _, _, _ => rfl
  | (k, v) :: rest, d2, t, ms => by
    by_cases h : k = t <;>
      simp [updateKey, h, updateKey_append rest d2 t ms]

theorem updateKey_of_not_mem : ∀ (dict : List (String × List String)) (t : String)
    (ms : List String), t ∉ dict.map Prod.fst → updateKey dict t ms = dict
  | [], _, _, _ => rfl
  | (k, v) :: rest, t, ms, h => by
    simp only [List.map_cons, List.mem_cons] at h
    push_neg at h
    simp [updateKey, Ne.symm h.1, updateKey_of_not_mem rest t ms h.2]

theorem refold_dict : ∀ (rs : List OutTypeRecord) (dict : List (String × List String)),
    (∀ r ∈ rs, r.name ∉ dict.map Prod.fst) → (rs.map fun r => r.name).Nodup →
    (∀ r ∈ rs, r.members.Nodup) →
    (rs.map outTypeToRecord).foldl addRecord dict =
      dict ++ rs.map fun r => (r.name, r.members)
  | [], dict, _, _, _ => by simp
  | r :: rs, dict, hdisj, hnod, hmem => by
    have hr : r.name ∉ dict.map Prod.fst := hdisj r (by simp)
    have hstep : addRecord dict (outTypeToRecord r) = dict ++ [(r.name, r.members)] := by
      simp only [addRecord, outTypeToRecord, if_neg hr, normalizeMembers]
      rw [updateKey_append, updateKey_of_not_mem dict _ _ hr]
      simp only [updateKey, if_pos rfl, updateKey, List.append_cancel_left_eq]
      rw [addMembers_eq_append r.members [] (hmem r (by simp)) (by simp)]
      rfl
    rw [List.map_cons, List.foldl_cons, hstep,
      refold_dict rs (dict ++ [(r.name, r.members)]) ?_ ?_ ?_]
    · simp
    · intro r1 h1
      simp only [List.map_append, List.mem_append, List.map_cons, List.map_nil,
        List.mem_singleton]
      rintro (hin | hin)
      · exact hdisj r1 (by simp [h1]) hin
      · rw [List.map_cons, List.nodup_cons] at hnod
        exact hnod.1 (hin ▸ List.mem_map_of_mem _ h1)
    · rw [List.map_cons, List.nodup_cons] at hnod
      exact hnod.2
    · exact fun r1 h1 => hmem r1 (by simp [h1])

theorem lookupD_map_pairs : ∀ (rs : List OutTypeRecord),
    (rs.map fun r => r.name).Nodup →
    ∀ r ∈ rs, lookupD (rs.map fun r1 => (r1.name, r1.members)) r.name = r.members
  | [], _, r, h => absurd h (by simp)
  | r0 :: rs, hnod, r, h => by
    rcases List.mem_cons.mp h with h1 | h1
    · subst h1
      simp [lookupD]
    · have hne : r0.name ≠ r.name := by
        intro he
        rw [List.map_cons, List.nodup_cons] at hnod
        exact hnod.1 (he ▸ List.mem_map_of_mem _ h1)
      simp only [List.map_cons, lookupD, if_neg hne]
      refine lookupD_map_pairs rs ?_ r h1
      rw [List.map_cons, List.nodup_cons] at hnod
      exact hnod.2

theorem map_lookup_refold : ∀ (rs : List OutTypeRecord)
    (dict : List (String × List String)),
    (∀ r ∈ rs, lookupD dict r.name = r.members) →
    (∀ r ∈ rs, List.Sorted (fun a b => strLe a b = true) r.members) →
    (rs.map fun r => r.name).map
      (fun nm => OutTypeRecord.mk (sortStr (lookupD dict nm)) nm) = rs
  | [], _, _, _ => rfl
  | r :: rs, dict, hl, hs => by
    rw [List.map_cons, List.map_cons]
    congr 1
    · rw [hl r (by simp), sortStr_eq_of_sorted (hs r (by simp))]
    · exact map_lookup_refold rs dict (fun r1 h1 => hl r1 (by simp [h1]))
        (fun r1 h1 => hs r1 (by simp [h1]))

theorem renderTypes_refold (rs : List OutTypeRecord)
    (hnod : (rs.map fun r => r.name).Nodup)
    (hsort : List.Sorted (fun a b => strLe a b = true) (rs.map fun r => r.name))
    (hms : ∀ r ∈ rs, List.Sorted (fun a b => strLe a b = true) r.members) :
    renderTypes (rs.map fun r => (r.name, r.members)) = rs := by
  have hkeys : (rs.map fun r => (r.name, r.members)).map Prod.fst =
      rs.map fun r => r.name := by
    rw [List.map_map]
    rfl
  rw [renderTypes, hkeys, sortStr_eq_of_sorted hsort]
  exact map_lookup_refold rs _ (lookupD_map_pairs rs hnod) hms

theorem map_name_render (dict : List (String × List String)) : ∀ (l : List String),
    ((l.map fun nm => OutTypeRecord.mk (sortStr (lookupD dict nm)) nm).map
      fun r => r.name) = l
  | [] => rfl
  | a :: l => by simp [map_name_render dict l]

theorem renderTypes_names_nodup {dict : List (String × List String)}
    (hk : (dict.map Prod.fst).Nodup) :
    ((renderTypes dict).map fun r => r.name).Nodup := by
  rw [renderTypes, map_name_render]
  exact sortStr_nodup hk

theorem renderTypes_names_sorted (dict : List (String × List String)) :
    List.Sorted (fun a b => strLe a b = true) ((renderTypes dict).map fun r => r.name) := by
  rw [renderTypes, map_name_render]
  exact sortStr_sorted (dict.map Prod.fst)

theorem renderTypes_members_nodup {dict : List (String × List String)}
    (hv : ∀ k, (lookupD dict k).Nodup) :
    ∀ r ∈ renderTypes dict, r.members.Nodup := by
  intro r hr
  simp only [renderTypes, List.mem_map] at hr
  obtain ⟨nm, _, rfl⟩ := hr
  exact sortStr_nodup (hv nm)

theorem renderTypes_members_sorted_le (dict : List (String × List String)) :
    ∀ r ∈ renderTypes dict, List.Sorted (fun a b => strLe a b = true) r.members := by
  intro r hr
  simp only [renderTypes, List.mem_map] at hr
  obtain ⟨nm, _, rfl⟩ := hr
  exact sortStr_sorted _

theorem remerge_eq (o : MergedPackage) (q : ℚ)
    (hver : o.version = formatVersion q)
    (hnod : (o.types.map fun r => r.name).Nodup)
    (hsort : List.Sorted (fun a b => strLe a b = true) (o.types.map fun r => r.name))
    (hmem : ∀ r ∈ o.types, r.members.Nodup)
    (hms : ∀ r ∈ o.types, List.Sorted (fun a b => strLe a b = true) r.members) :
    merge [outToRaw o] =
      .ok { o with fullName := "Merged_Package"
                   description := descHeader ++ o.fullName } := by
  have hpv : parseVersion o.version = some (mkRat ((tenths q : ℕ) : ℤ) 10) := by
    rw [hver]
    exact parseVersion_formatVersion q
  have hdict := refold_dict o.types [] (by simp) hnod hmem
  have hrender := renderTypes_refold o.types hnod hsort hms
  rcases o with ⟨fn, desc, ver, tys, ex⟩
  simp only at hver hpv hdict hrender
  subst hver
  have hone : String.intercalate "\n" (sortStr [fn]) = fn := rfl
  simp only [merge, runLoop, outToRaw, hpv, finalize, initState, procTypes,
    normalizeTypes, stepVersion_none, List.nil_append, hone, hdict, hrender,
    formatVersion_mkRat_tenths]

/-- C6 counterexample: merging the output of a merge of one document named
"A", wrapped as a single-element input, does not reproduce that output:
the description is rewritten to list only the merged package's own name. -/
theorem merge_not_idempotent_counterexample :
    merge [ValidDoc.toRaw ⟨"A", "1.0", .one ⟨"T", .one "x"⟩, none, []⟩] =
      .ok { fullName := "Merged_Package"
            description := descHeader ++ "A"
            version := "1.0"
            types := [⟨["x"], "T"⟩]
            extra := [] } ∧
    merge [outToRaw { fullName := "Merged_Package"
                      description := descHeader ++ "A"
                      version := "1.0"
                      types := [⟨["x"], "T"⟩]
                      extra := [] }] ≠
      .ok { fullName := "Merged_Package"
            description := descHeader ++ "A"
            version := "1.0"
            types := [⟨["x"], "T"⟩]
            extra := [] } := by decide

/-- C6 amended: merging any merge output, wrapped as a single-element
input sequence, reproduces the output in every field except
`description`, which becomes the header followed by the single name
"Merged_Package"; version, types, name and pass-through fields are all
preserved. -/
theorem merge_remerge_changes_only_description (ds : List RawDoc) (o : MergedPackage)
    (h : merge ds = .ok o) :
    merge [outToRaw o] =
      .ok { o with description := descHeader ++ "Merged_Package" } := by
  obtain ⟨st, hrun, hfin⟩ := merge_ok_elim h
  have hinv := StInv_runLoop ds initState st hrun StInv_initState
  obtain ⟨d, p, v, ht, hdp, hv, rfl⟩ := finalize_ok_elim hfin
  exact remerge_eq _ v rfl (renderTypes_names_nodup hinv.1) (renderTypes_names_sorted _)
    (renderTypes_members_nodup hinv.2.1) (renderTypes_members_sorted_le _)

/-- C6 amended witness: re-merging the concrete output of a one-document
merge preserves everything but the description. -/
theorem merge_remerge_changes_only_description_witness :
    merge [outToRaw { fullName := "Merged_Package"
                      description := descHeader ++ "A"
                      version := "1.0"
                      types := [⟨["x"], "T"⟩]
                      extra := [] }] =
      .ok { fullName := "Merged_Package"
            description := descHeader ++ "Merged_Package"
            version := "1.0"
            types := [⟨["x"], "T"⟩]
            extra := [] } := by
  have h := merge_remerge_changes_only_description
    [ValidDoc.toRaw ⟨"A", "1.0", .one ⟨"T", .one "x"⟩, none, []⟩]
    { fullName := "Merged_Package"
      description := descHeader ++ "A"
      version := "1.0"
      types := [⟨["x"], "T"⟩]
      extra := [] } (by decide)
  simpa using h

/-- Sanity check for the decimal version model: "59.10" and "59.1" parse
to the same numeric value (spec section 9). -/
theorem parseVersion_trailing_zero : parseVersion "59.10" = parseVersion "59.1" := by
  decide

/-- The concrete end-to-end scenario of spec section 8: versions "58.0"
and "59", mixed single/list type and member shapes, merge to version
"59.0" with sorted, deduplicated types. -/
theorem merge_concrete_scenario :
    merge [ValidDoc.toRaw ⟨"A", "58.0", .one ⟨"ApexClass", .one "Foo"⟩, none, []⟩,
           ValidDoc.toRaw ⟨"B", "59",
             .many [⟨"ApexClass", .many ["Bar", "Foo"]⟩, ⟨"Layout", .one "X"⟩],
             none, []⟩] =
    .ok { fullName := "Merged_Package"
          description := descHeader ++ "A\nB"
          version := "59.0"
          types := [⟨["Bar", "Foo"], "ApexClass"⟩, ⟨["X"], "Layout"⟩]
          extra := [] } := by decide
